import Mathlib

/-!
Shallow embedding of the `jackczen/viterbi` repository core
(`src/viterbi/hidden_markov_model.py` and `src/viterbi/viterbi_algorithm.py`).

Numpy `longdouble` arithmetic is idealized as exact rational arithmetic (ℚ).
A numpy `ndarray` is modelled by its shape together with its row-major flat
data.  `scipy.linalg.null_space` is modelled by an exact kernel-basis
computation (Gauss-Jordan elimination); the stationary-distribution code only
consumes the basis through its cardinality and through the scale-invariant
normalize-by-sum step, so any choice of basis of the same kernel yields the
same observable results.
-/

namespace Viterbi

/-- Model of a numpy `ndarray` with `longdouble` entries: the shape together
with the row-major flattened data. -/
structure NDArray where
  shape : List Nat
  data : List ℚ
deriving DecidableEq

/-- Number of rows (`shape[0]`, i.e. Python `len(arr)`). -/
def NDArray.nrows (a : NDArray) : Nat := a.shape.getD 0 0

/-- Number of columns (`shape[1]`). -/
def NDArray.ncols (a : NDArray) : Nat := a.shape.getD 1 0

/-- Row `i` of a two-dimensional array: a contiguous chunk of the
row-major data. -/
def NDArray.row (a : NDArray) (i : Nat) : List ℚ :=
  (a.data.drop (i * a.ncols)).take a.ncols

/-- The list of rows of a two-dimensional array. -/
def NDArray.toRows (a : NDArray) : List (List ℚ) :=
  (List.range a.nrows).map a.row

/-- `arr.sum(axis=1)` for a two-dimensional array: the list of row sums. -/
def NDArray.rowSums (a : NDArray) : List ℚ :=
  a.toRows.map (fun r => r.sum)

/-- Well-formedness of the flat data against the shape (automatic for every
array numpy actually constructs). -/
def NDArray.wf (a : NDArray) : Prop := a.data.length = a.shape.prod

instance (a : NDArray) : Decidable a.wf := by
  unfold NDArray.wf; infer_instance

/-- Errors raised by the embedded code.  Python raises `ValueError` or
`IndexError` with distinct messages / failing indices; one constructor per
raise site keeps the payloads apart. -/
inductive PyError where
  /-- "Matrix is not two-dimensions!" -/
  | matrixNotTwoDimensional
  /-- "Matrix is not square!" -/
  | matrixNotSquare
  /-- "Rows include negative probabilities!" -/
  | negativeTransitionEntry
  /-- "Matrix is not stochastic!" -/
  | transitionNotStochastic
  /-- "Does not provide a distribution for each state!" -/
  | samplingDimensionsMismatch
  /-- "Distributions on marbles include negative probabilities!" -/
  | negativeSamplingEntry
  /-- "Not a valid distribution!" -/
  | samplingNotStochastic
  /-- "HMM does not have a unique stationary distribution!" with the basis. -/
  | nonUniqueStationary (basis : List (List ℚ))
  /-- "Cannot provide empty sequence of events!" -/
  | emptySequence
  /-- `IndexError` from indexing an emission-matrix axis of length `m`
  with an observation symbol outside `[-m, m)`. -/
  | marbleIndex
  /-- `IndexError` from indexing the transition matrix with a parent
  candidate index that exceeds its row count. -/
  | parentIndex
  /-- `IndexError` from indexing the sampling matrix with a bag index that
  exceeds its row count. -/
  | bagIndex
  /-- `ValueError` from broadcasting two 1-D arrays of incompatible lengths. -/
  | broadcastMismatch
  /-- `ValueError` from `np.argmax` on an empty array. -/
  | emptyArgmax
  /-- `IndexError` from indexing a backpointer list out of range. -/
  | backtrackIndex
deriving DecidableEq

instance {α β : Type} [DecidableEq α] [DecidableEq β] :
    DecidableEq (Except α β) := fun a b =>
  match a, b with
  | .ok x, .ok y =>
    if h : x = y then .isTrue (by rw [h]) else .isFalse (by simp [h])
  | .error x, .error y =>
    if h : x = y then .isTrue (by rw [h]) else .isFalse (by simp [h])
  | .ok _, .error _ => .isFalse (by simp)
  | .error _, .ok _ => .isFalse (by simp)

/-- The tolerance `1e-5` from the validators, as an exact rational. -/
def tol : ℚ := 1 / 100000

/-- Embedding of `valid_tranisition_matrix` (sic): the transition matrix
must be two-dimensional, square, entrywise non-negative, and every row sum
may exceed `1.0` by at most `1e-5`. -/
def valid_tranisition_matrix (mat : NDArray) : Except PyError Unit :=
  if mat.shape.length ≠ 2 then .error .matrixNotTwoDimensional
  else if mat.shape.getD 0 0 ≠ mat.shape.getD 1 0 then .error .matrixNotSquare
  else if mat.data.any (fun x => x < 0) then .error .negativeTransitionEntry
  else if mat.rowSums.any (fun s => s - 1 > tol) then .error .transitionNotStochastic
  else .ok ()

/-- Embedding of `valid_sampling_probabilities`: the sampling matrix must
have the same number of dimensions as the (already validated) transition
matrix, be entrywise non-negative, and have row sums at most `1 + 1e-5`.
Note: only the number of dimensions is compared, not the row count. -/
def valid_sampling_probabilities (transitionShape : List Nat)
    (samp : NDArray) : Except PyError Unit :=
  if transitionShape.length ≠ samp.shape.length then .error .samplingDimensionsMismatch
  else if samp.data.any (fun x => x < 0) then .error .negativeSamplingEntry
  else if samp.rowSums.any (fun s => s - 1 > tol) then .error .samplingNotStochastic
  else .ok ()

/-- The immutable (attrs-frozen) `HiddenMarkovModel` value. -/
structure HiddenMarkovModel where
  transition_matrix : NDArray
  sampling_probabilities : NDArray
deriving DecidableEq

/-- Embedding of `HiddenMarkovModel(...)` construction: the attrs validators
run in field order and the first failure aborts construction. -/
def HiddenMarkovModel.make (t e : NDArray) : Except PyError HiddenMarkovModel := do
  valid_tranisition_matrix t
  valid_sampling_probabilities t.shape e
  .ok ⟨t, e⟩

/-! ### Exact linear algebra: kernel basis (model of `scipy.linalg.null_space`) -/

/-- Entry `j` of a row vector (`0` out of range; every use is in range). -/
def entry (r : List ℚ) (j : Nat) : ℚ := r.getD j 0

/-- `A - B` entrywise for two row-lists (numpy elementwise subtraction of
equal-shape matrices). -/
def matSub (A B : List (List ℚ)) : List (List ℚ) :=
  List.zipWith (fun ra rb => List.zipWith (fun a b => a - b) ra rb) A B

/-- Transpose of a matrix whose rows have length `c`. -/
def transposeM (c : Nat) (A : List (List ℚ)) : List (List ℚ) :=
  (List.range c).map (fun j => A.map (fun r => entry r j))

/-- The `n × n` identity matrix as a row list (`np.identity(n)`). -/
def identityRows (n : Nat) : List (List ℚ) :=
  (List.range n).map (fun i => (List.range n).map (fun j => if i = j then 1 else 0))

/-- Extract the first row with a nonzero entry in column `j`, returning it
together with the remaining rows in order. -/
def extractPivot (j : Nat) : List (List ℚ) → Option (List ℚ × List (List ℚ))
  | [] => none
  | r :: rs =>
    if entry r j ≠ 0 then some (r, rs)
    else
      match extractPivot j rs with
      | some (p, rest) => some (p, r :: rest)
      | none => none

/-- Subtract `entry r j` times the (normalized) pivot row from `r`, producing
a row of width `c` whose entry `j` is zero. -/
def reduceRow (c j : Nat) (piv r : List ℚ) : List ℚ :=
  (List.range c).map (fun i => entry r i - entry r j * entry piv i)

/-- State of Gauss-Jordan elimination: accumulated pivot rows (tagged with
their pivot column) and the rows still unprocessed. -/
structure ElimState where
  pivots : List (Nat × List ℚ)
  rows : List (List ℚ)
deriving DecidableEq

/-- One Gauss-Jordan step on column `j` in a matrix of width `c`. -/
def elimStep (c : Nat) (st : ElimState) (j : Nat) : ElimState :=
  match extractPivot j st.rows with
  | none => st
  | some (p, rest) =>
    let piv := (List.range c).map (fun i => entry p i / entry p j)
    { pivots := (st.pivots.map (fun q => (q.1, reduceRow c j piv q.2))) ++ [(j, piv)]
      rows := rest.map (reduceRow c j piv) }

/-- Reduced-row-echelon pivot rows of a matrix of width `c`. -/
def rrefPivots (c : Nat) (A : List (List ℚ)) : List (Nat × List ℚ) :=
  ((List.range c).foldl (elimStep c) ⟨[], A⟩).pivots

/-- Exact model of `scipy.linalg.null_space`: a basis of the kernel of the
matrix `A` of width `c`, one vector per free column. -/
def null_space (c : Nat) (A : List (List ℚ)) : List (List ℚ) :=
  let piv := rrefPivots c A
  let pivotCols := piv.map Prod.fst
  ((List.range c).filter (fun f => ¬ f ∈ pivotCols)).map (fun f =>
    (List.range c).map (fun i =>
      if i = f then 1
      else
        match piv.find? (fun q => q.1 = i) with
        | some q => -(entry q.2 f)
        | none => 0))

/-! ### `steady_state_probabilities` -/

/-- The kernel basis the code computes inside `steady_state_probabilities`:
the null space of `(transition_matrix - identity(n)).transpose()`. -/
def stationaryBasis (hmm : HiddenMarkovModel) : List (List ℚ) :=
  let n := hmm.transition_matrix.nrows
  null_space n (transposeM n (matSub hmm.transition_matrix.toRows (identityRows n)))

/-- Embedding of `HiddenMarkovModel.steady_state_probabilities`: compute the
kernel basis, fail when its cardinality exceeds one, otherwise flatten and
normalize by the sum of entries.  (With an empty basis the flattened vector
is empty and the result is the empty vector, mirroring numpy, where an empty
array divided by the scalar `0.0` is again the empty array.) -/
def HiddenMarkovModel.steady_state_probabilities
    (hmm : HiddenMarkovModel) : Except PyError (List ℚ) :=
  let basis := stationaryBasis hmm
  if 1 < basis.length then .error (.nonUniqueStationary basis)
  else
    let v := basis.flatten
    .ok (v.map (fun x => x / v.sum))

/-! ### `viterbi` (src/viterbi/viterbi_algorithm.py) -/

/-- Numpy/Python index semantics on an axis of length `m`: indices in
`[0, m)` are used directly, indices in `[-m, 0)` address from the end, and
anything else raises `IndexError`. -/
def pyIndex (m : Nat) (v : Int) : Option Nat :=
  if 0 ≤ v ∧ v < (m : Int) then some v.toNat
  else if -(m : Int) ≤ v ∧ v < 0 then some (v + m).toNat
  else none

/-- `hmm.sampling_probabilities.transpose()[marble]`: row `marble` of the
transpose, i.e. column `marble` of the sampling matrix (one entry per
sampling-matrix row), or `IndexError` when `marble` is out of range for the
transpose's first axis (length = number of columns `m`). -/
def samplingColumn (hmm : HiddenMarkovModel) (marble : Int) : Except PyError (List ℚ) :=
  match pyIndex hmm.sampling_probabilities.ncols marble with
  | some j => .ok (hmm.sampling_probabilities.toRows.map (fun r => entry r j))
  | none => .error .marbleIndex

/-- Numpy elementwise product of two 1-D arrays with broadcasting: equal
lengths multiply pointwise, a length-one operand is broadcast across the
other, and any other combination raises a broadcast `ValueError`. -/
def broadcastMul (a b : List ℚ) : Except PyError (List ℚ) :=
  if a.length = b.length then .ok (List.zipWith (fun x y => x * y) a b)
  else if a.length = 1 then .ok (b.map (fun y => a.headD 0 * y))
  else if b.length = 1 then .ok (a.map (fun x => x * b.headD 0))
  else .error .broadcastMismatch

/-- The inner loop of the recurrence: scan `enumerate(probabilities)` in
index order, computing `parent_probability * transition_matrix[parent][bag]`
for each parent candidate (an `IndexError` when the candidate index reaches
past the transition matrix's rows), and keep the strictly largest product
seen, starting from running maximum `0.0` and placeholder parent `0`. -/
def bestParentAux (Tr : List (List ℚ)) (bag : Nat) :
    Nat → List ℚ → ℚ × Nat → Except PyError (ℚ × Nat)
  | _, [], acc => .ok acc
  | i, pp :: rest, acc =>
    if h : i < Tr.length then
      if pp * entry (Tr.get ⟨i, h⟩) bag > acc.1 then
        bestParentAux Tr bag (i + 1) rest (pp * entry (Tr.get ⟨i, h⟩) bag, i)
      else bestParentAux Tr bag (i + 1) rest acc
    else .error .parentIndex

/-- Body of `for bag in range(num_bags)`: find the most likely parent, then
multiply by `sampling_probabilities[bag][marble]` (first indexing row `bag`,
then the observation symbol with Python index semantics). -/
def stepBag (hmm : HiddenMarkovModel) (probs : List ℚ) (marble : Int)
    (bag : Nat) : Except PyError (ℚ × Nat) := do
  let mp ← bestParentAux hmm.transition_matrix.toRows bag 0 probs (0, 0)
  if bag < hmm.sampling_probabilities.nrows then
    match pyIndex hmm.sampling_probabilities.ncols marble with
    | some j => .ok (mp.1 * entry (hmm.sampling_probabilities.row bag) j, mp.2)
    | none => .error .marbleIndex
  else .error .bagIndex

/-- Run `stepBag` on each bag in order, collecting the results and stopping
at the first error (the order in which the Python loop visits the bags). -/
def stepBags (hmm : HiddenMarkovModel) (probs : List ℚ) (marble : Int) :
    List Nat → Except PyError (List (ℚ × Nat))
  | [] => .ok []
  | bag :: rest => do
    let r ← stepBag hmm probs marble bag
    let q ← stepBags hmm probs marble rest
    .ok (r :: q)

/-- One time step of the forward pass: the new probability vector and the
recorded parent for every bag in `range(num_bags)` in index order. -/
def stepMarble (hmm : HiddenMarkovModel) (probs : List ℚ) (marble : Int) :
    Except PyError (List ℚ × List Nat) := do
  let rs ← stepBags hmm probs marble (List.range hmm.transition_matrix.nrows)
  .ok (rs.map Prod.fst, rs.map Prod.snd)

/-- The forward loop over `sequence[1:]`, threading the probability vector
and collecting one backpointer list per time step, in order. -/
def forward (hmm : HiddenMarkovModel) (probs : List ℚ) :
    List Int → Except PyError (List ℚ × List (List Nat))
  | [] => .ok (probs, [])
  | v :: ms => do
    let r ← stepMarble hmm probs v
    let w ← forward hmm r.1 ms
    .ok (w.1, r.2 :: w.2)

/-- Everything `viterbi` computes before backtracking: reject the empty
sequence, compute the stationary vector, index the first observation into
the transposed sampling matrix, broadcast-multiply, and run the forward
loop. -/
def viterbi_forward (hmm : HiddenMarkovModel) (sequence : List Int) :
    Except PyError (List ℚ × List (List Nat)) :=
  match sequence with
  | [] => .error .emptySequence
  | first :: rest => do
    let ss ← hmm.steady_state_probabilities
    let col ← samplingColumn hmm first
    let probs ← broadcastMul ss col
    forward hmm probs rest

/-- Tail of `np.argmax`: first index attaining the maximum. -/
def argmaxGo : Nat → List ℚ → ℚ × Nat → Nat
  | _, [], acc => acc.2
  | i, y :: ys, acc =>
    if y > acc.1 then argmaxGo (i + 1) ys (y, i) else argmaxGo (i + 1) ys acc

/-- `np.argmax`: the first index attaining the maximum; `ValueError` on an
empty array. -/
def argmaxE : List ℚ → Except PyError Nat
  | [] => .error .emptyArgmax
  | x :: xs => .ok (argmaxGo 1 xs (x, 0))

/-- Python list indexing by a non-negative index (`IndexError` past the
end). -/
def pyGet (l : List Nat) (i : Nat) : Except PyError Nat :=
  if h : i < l.length then .ok (l.get ⟨i, h⟩) else .error .backtrackIndex

/-- Walk a list of backpointer lists, looking the current bag up in each
and threading the result (the body of the `for parent_array in
reversed(parents_by_marble)` loop). -/
def backtrackGo : List (List Nat) → Nat → Except PyError (List Nat)
  | [], _ => .ok []
  | arr :: rest, last => do
    let p ← pyGet arr last
    let q ← backtrackGo rest p
    .ok (p :: q)

/-- Reconstruct the reversed path from the backpointer lists (visited in
reverse order, starting from the most likely end bag), then reverse it. -/
def backtrack (parents : List (List Nat)) (endBag : Nat) :
    Except PyError (List Nat) := do
  let q ← backtrackGo parents.reverse endBag
  .ok (endBag :: q).reverse

/-- Embedding of `viterbi(hmm, sequence)`. -/
def viterbi (hmm : HiddenMarkovModel) (sequence : List Int) :
    Except PyError (List Nat) := do
  let fp ← viterbi_forward hmm sequence
  let endBag ← argmaxE fp.1
  backtrack fp.2 endBag

/-! ### The specification's forward recurrence (§4.3 of the spec)

A second, total set of definitions transcribing the spec's own words, to be
compared with the embedded code.  `Tr` and `Er` are the transition and
emission matrices as row lists, `n` the number of states. -/

/-- Spec §4.3 step 2: `prob[state] = stationary[state] *
emission_matrix[state][obs[0]]` for every state. -/
def spec_init (n : Nat) (ss : List ℚ) (Er : List (List ℚ)) (v : Nat) : List ℚ :=
  (List.range n).map (fun s => entry ss s * entry (Er.getD s []) v)

/-- Spec §4.3 step 3a: scan prior states in index order, comparing each
candidate `prob[p] * T[p][s]` by strict greater-than against a running
maximum initialized to `0.0` (recorded index initialized to `0`). -/
def spec_scan (Tr : List (List ℚ)) (s : Nat) :
    Nat → List ℚ → ℚ × Nat → ℚ × Nat
  | _, [], acc => acc
  | p, pp :: rest, acc =>
    if pp * entry (Tr.getD p []) s > acc.1 then
      spec_scan Tr s (p + 1) rest (pp * entry (Tr.getD p []) s, p)
    else spec_scan Tr s (p + 1) rest acc

/-- The recorded `best_prev` for state `s`. -/
def spec_best_prev (Tr : List (List ℚ)) (prob : List ℚ) (s : Nat) : Nat :=
  (spec_scan Tr s 0 prob (0, 0)).2

/-- The running maximum the scan ends with for state `s`. -/
def spec_max (Tr : List (List ℚ)) (prob : List ℚ) (s : Nat) : ℚ :=
  (spec_scan Tr s 0 prob (0, 0)).1

/-- Spec §4.3 step 3b exactly as the claim words it:
`new_prob[s] = prob[best_prev] * T[best_prev][s] * E[s][obs[t]]`,
with the backpointers of step 3c. -/
def spec_step_claim (n : Nat) (Tr Er : List (List ℚ)) (prob : List ℚ)
    (v : Nat) : List ℚ × List Nat :=
  ((List.range n).map (fun s =>
      entry prob (spec_best_prev Tr prob s) *
        entry (Tr.getD (spec_best_prev Tr prob s) []) s *
        entry (Er.getD s []) v),
   (List.range n).map (fun s => spec_best_prev Tr prob s))

/-- The step the code actually performs: `new_prob[s]` is the scan's final
running maximum (which is `prob[best_prev] * T[best_prev][s]` whenever some
candidate exceeded `0.0`, and `0.0` otherwise) times `E[s][obs[t]]`. -/
def spec_step (n : Nat) (Tr Er : List (List ℚ)) (prob : List ℚ)
    (v : Nat) : List ℚ × List Nat :=
  ((List.range n).map (fun s => spec_max Tr prob s * entry (Er.getD s []) v),
   (List.range n).map (fun s => spec_best_prev Tr prob s))

/-- The forward recurrence over `obs[1:]` with the claim's step formula:
the final probability vector together with the backpointer lists of every
step in order. -/
def spec_forward_claim (n : Nat) (Tr Er : List (List ℚ)) (p0 : List ℚ) :
    List Nat → List ℚ × List (List Nat)
  | [] => (p0, [])
  | v :: ms =>
    let r := spec_step_claim n Tr Er p0 v
    let w := spec_forward_claim n Tr Er r.1 ms
    (w.1, r.2 :: w.2)

/-- The forward recurrence over `obs[1:]` with the running-maximum step. -/
def spec_forward (n : Nat) (Tr Er : List (List ℚ)) (p0 : List ℚ) :
    List Nat → List ℚ × List (List Nat)
  | [] => (p0, [])
  | v :: ms =>
    let r := spec_step n Tr Er p0 v
    let w := spec_forward n Tr Er r.1 ms
    (w.1, r.2 :: w.2)

/-! ### Concrete models -/

/-- Transition matrix `[[0.8, 0.2], [0.5, 0.5]]` of the spec's two-state
end-to-end example. -/
def t9 : NDArray := ⟨[2, 2], [4/5, 1/5, 1/2, 1/2]⟩

/-- Emission matrix `[[0.4, 0.6], [0.7, 0.3]]` of the two-state example. -/
def e9 : NDArray := ⟨[2, 2], [2/5, 3/5, 7/10, 3/10]⟩

/-- The spec's two-state end-to-end example model. -/
def M9 : HiddenMarkovModel := ⟨t9, e9⟩

/-- The sub-stochastic one-state transition matrix `[[0.5]]`. -/
def t05 : NDArray := ⟨[1, 1], [1/2]⟩

/-- The one-state, one-symbol emission matrix `[[1.0]]`. -/
def e05 : NDArray := ⟨[1, 1], [1]⟩

/-- A validated model whose kernel of `(T - I)^T` is trivial. -/
def M05 : HiddenMarkovModel := ⟨t05, e05⟩

/-- The one-state transition matrix `[[1.0]]`. -/
def t1 : NDArray := ⟨[1, 1], [1]⟩

/-- The one-state, one-symbol emission matrix `[[1.0]]` (again, under a
name of its own for the one-state model). -/
def e1 : NDArray := ⟨[1, 1], [1]⟩

/-- The trivial one-state, one-symbol model. -/
def M1 : HiddenMarkovModel := ⟨t1, e1⟩

/-- A two-row emission matrix `[[0.3, 0.7], [0.8, 0.2]]` paired below with
the one-state transition matrix (validation compares dimensionality only,
so the row-count mismatch is accepted). -/
def e7 : NDArray := ⟨[2, 2], [3/10, 7/10, 4/5, 1/5]⟩

/-- A validated model with one state but two emission rows. -/
def M7 : HiddenMarkovModel := ⟨t1, e7⟩

/-- Transition matrix `[[1.0, 0.000005], [0.0, 1.0000025]]`: validated
(row sums `1.000005` and `1.0000025` are within the `1e-5` tolerance), with
a one-dimensional kernel of `(T - I)^T` spanned by the mixed-sign vector
`(-0.4, 1)`. -/
def tC1 : NDArray := ⟨[2, 2], [1, 1/200000, 0, 400001/400000]⟩

/-- Single-symbol emission matrix `[[1.0], [1.0]]`. -/
def eC1 : NDArray := ⟨[2, 1], [1, 1]⟩

/-- A validated model whose stationary vector `[-1, 2]` has a negative
entry, so a forward probability vector can be entrywise non-positive. -/
def MC1 : HiddenMarkovModel := ⟨tC1, eC1⟩

/-- Transition matrix `[[1.000005, 0.0], [0.000002, 1.0]]`: validated, with
kernel of `(T - I)^T` spanned by `(-0.4, 1)`, whose sum `0.6` is nonzero. -/
def tneg : NDArray := ⟨[2, 2], [1 + 5/1000000, 0, 2/1000000, 1]⟩

/-- Single-symbol emission matrix `[[1.0], [1.0]]` for `Mneg`. -/
def eneg : NDArray := ⟨[2, 1], [1, 1]⟩

/-- A validated model whose normalized stationary vector `[-2/3, 5/3]`
contains a negative entry. -/
def Mneg : HiddenMarkovModel := ⟨tneg, eneg⟩

/-- The `n × n` identity matrix as an `NDArray`. -/
def idND (n : Nat) : NDArray := ⟨[n, n], (identityRows n).flatten⟩

/-- The `n × 1` all-ones emission matrix. -/
def onesE (n : Nat) : NDArray := ⟨[n, 1], List.replicate n 1⟩

/-- The model with identity transition matrix (every state absorbing) and a
single emission symbol. -/
def idHMM (n : Nat) : HiddenMarkovModel := ⟨idND n, onesE n⟩

/-! ### Theorems -/

/-- Sum of a list after dividing every entry by a fixed scalar. -/
theorem list_sum_div (l : List ℚ) (s : ℚ) :
    (l.map (fun x => x / s)).sum = l.sum / s := by
  induction l with
  | nil => simp
  | cons x xs ih => simp [ih, add_div]

/-- **C8**: calling decode with a zero-length observation sequence fails
with the empty-sequence error; the statement holds for *every* model value,
including models whose stationary-distribution computation would itself
fail, because the emptiness check precedes all other work. -/
theorem c8_empty_sequence_rejected (hmm : HiddenMarkovModel) :
    viterbi hmm [] = .error .emptySequence := rfl

unseal Rat.add Rat.mul Rat.inv Rat.sub in
/-- **C9**: the spec's two-state end-to-end example: construction is
accepted, the stationary distribution is exactly `[5/7, 2/7]`
(`≈ [0.714285, 0.285714]`), and decoding `[0, 0, 1, 0]` yields
`[0, 0, 0, 0]`. -/
theorem c9_end_to_end_example :
    HiddenMarkovModel.make t9 e9 = .ok M9 ∧
    M9.steady_state_probabilities = .ok [5/7, 2/7] ∧
    viterbi M9 [0, 0, 1, 0] = .ok [0, 0, 0, 0] := by decide

/-- **C4 (amended)**: for a validated model whose kernel basis of
`(T - I)^T` is empty (null space of dimension 0), the stationary
computation does *not* raise: the multiplicity check only fires above one,
the flattened empty basis is the empty vector, and numpy's elementwise
division of an empty array returns the empty array, so the result is
`ok []`. -/
theorem c4_degenerate_kernel_returns_empty (t e : NDArray)
    (hmm : HiddenMarkovModel)
    (_hval : HiddenMarkovModel.make t e = .ok hmm)
    (hdim : stationaryBasis hmm = []) :
    hmm.steady_state_probabilities = .ok [] := by
  simp [HiddenMarkovModel.steady_state_probabilities, hdim]

unseal Rat.add Rat.mul Rat.inv Rat.sub in
/-- **C4 (counterexample)**: the validated one-state model `[[0.5]]` has a
trivial kernel (`dim 0`), and `steady_state_probabilities` returns the
empty vector instead of failing with an error. -/
theorem c4_counterexample_no_error :
    HiddenMarkovModel.make t05 e05 = .ok M05 ∧
    stationaryBasis M05 = [] ∧
    M05.steady_state_probabilities = .ok [] := by decide

unseal Rat.add Rat.mul Rat.inv Rat.sub in
/-- Witness for `c4_degenerate_kernel_returns_empty` at the model `M05`. -/
theorem c4_witness : M05.steady_state_probabilities = .ok [] :=
  c4_degenerate_kernel_returns_empty t05 e05 M05 (by decide) (by decide)

/-- **C5 (amended)**: for a validated model whose kernel basis of
`(T - I)^T` has exactly one vector `v` with nonzero entry sum, the
stationary computation returns `v` divided entrywise by its sum (no sign
correction or absolute value), and the entries of the result sum to `1`.
The entries need *not* all be non-negative: see
`c5_counterexample_negative_entry`. -/
theorem c5_normalize_by_sum (t e : NDArray) (hmm : HiddenMarkovModel)
    (v : List ℚ)
    (_hval : HiddenMarkovModel.make t e = .ok hmm)
    (hdim : stationaryBasis hmm = [v])
    (hsum : v.sum ≠ 0) :
    hmm.steady_state_probabilities = .ok (v.map (fun x => x / v.sum)) ∧
    (v.map (fun x => x / v.sum)).sum = 1 := by
  constructor
  · simp [HiddenMarkovModel.steady_state_probabilities, hdim]
  · rw [list_sum_div, div_self hsum]

unseal Rat.add Rat.mul Rat.inv Rat.sub in
/-- **C5 (counterexample)**: the validated model `Mneg` has a
one-dimensional kernel spanned by `[-2/5, 1]`, and the normalized
stationary vector `[-2/3, 5/3]` contains a negative entry, refuting the
claim that the returned entries are all `≥ 0`. -/
theorem c5_counterexample_negative_entry :
    HiddenMarkovModel.make tneg eneg = .ok Mneg ∧
    stationaryBasis Mneg = [[-2/5, 1]] ∧
    Mneg.steady_state_probabilities = .ok [-2/3, 5/3] ∧
    ¬ (0 ≤ (-2/3 : ℚ)) := by decide

unseal Rat.add Rat.mul Rat.inv Rat.sub in
/-- Witness for `c5_normalize_by_sum` at the two-state example model. -/
theorem c5_witness :
    M9.steady_state_probabilities =
      .ok (([5/2, 1] : List ℚ).map (fun x => x / ([5/2, 1] : List ℚ).sum)) ∧
    (([5/2, 1] : List ℚ).map (fun x => x / ([5/2, 1] : List ℚ).sum)).sum = 1 :=
  c5_normalize_by_sum t9 e9 M9 [5/2, 1] (by decide) (by decide) (by decide)

/-- `valid_tranisition_matrix` succeeds exactly on two-dimensional, square,
entrywise non-negative matrices whose row sums stay within `1 + 1e-5`. -/
theorem valid_tranisition_matrix_ok_iff (t : NDArray) :
    valid_tranisition_matrix t = .ok () ↔
      (t.shape.length = 2 ∧ t.shape.getD 0 0 = t.shape.getD 1 0 ∧
       (∀ x ∈ t.data, 0 ≤ x) ∧ (∀ s ∈ t.rowSums, s ≤ 1 + tol)) := by
  unfold valid_tranisition_matrix
  split_ifs with h1 h2 h3 h4
  · exact iff_of_false (by simp) (fun h => h1 h.1)
  · exact iff_of_false (by simp) (fun h => h2 h.2.1)
  · refine iff_of_false (by simp) (fun h => ?_)
    obtain ⟨x, hx, hlt⟩ := List.any_eq_true.mp h3
    exact absurd (h.2.2.1 x hx) (not_le.mpr (by exact_mod_cast of_decide_eq_true hlt))
  · refine iff_of_false (by simp) (fun h => ?_)
    obtain ⟨s, hs, hlt⟩ := List.any_eq_true.mp h4
    have hlt2 : s - 1 > tol := of_decide_eq_true hlt
    have := h.2.2.2 s hs
    linarith
  · refine iff_of_true rfl ⟨not_not.mp h1, not_not.mp h2, ?_, ?_⟩
    · intro x hx
      by_contra hneg
      exact h3 (List.any_eq_true.mpr ⟨x, hx, decide_eq_true (not_le.mp hneg)⟩)
    · intro s hs
      by_contra hgt
      exact h4 (List.any_eq_true.mpr ⟨s, hs, decide_eq_true (by push_neg at hgt; linarith)⟩)

/-- `valid_sampling_probabilities` succeeds exactly when the dimensionality
matches and the matrix is entrywise non-negative with row sums within
`1 + 1e-5`. -/
theorem valid_sampling_probabilities_ok_iff (sh : List Nat) (e : NDArray) :
    valid_sampling_probabilities sh e = .ok () ↔
      (sh.length = e.shape.length ∧ (∀ x ∈ e.data, 0 ≤ x) ∧
       (∀ s ∈ e.rowSums, s ≤ 1 + tol)) := by
  unfold valid_sampling_probabilities
  split_ifs with h1 h2 h3
  · exact iff_of_false (by simp) (fun h => h1 h.1)
  · refine iff_of_false (by simp) (fun h => ?_)
    obtain ⟨x, hx, hlt⟩ := List.any_eq_true.mp h2
    exact absurd (h.2.1 x hx) (not_le.mpr (of_decide_eq_true hlt))
  · refine iff_of_false (by simp) (fun h => ?_)
    obtain ⟨s, hs, hlt⟩ := List.any_eq_true.mp h3
    have hlt2 : s - 1 > tol := of_decide_eq_true hlt
    have := h.2.2 s hs
    linarith
  · refine iff_of_true rfl ⟨not_not.mp h1, ?_, ?_⟩
    · intro x hx
      by_contra hneg
      exact h2 (List.any_eq_true.mpr ⟨x, hx, decide_eq_true (not_le.mp hneg)⟩)
    · intro s hs
      by_contra hgt
      exact h3 (List.any_eq_true.mpr ⟨s, hs, decide_eq_true (by push_neg at hgt; linarith)⟩)

/-- Construction succeeds exactly when both validators succeed. -/
theorem make_ok_iff (t e : NDArray) :
    (∃ hmm, HiddenMarkovModel.make t e = .ok hmm) ↔
      (valid_tranisition_matrix t = .ok () ∧
       valid_sampling_probabilities t.shape e = .ok ()) := by
  unfold HiddenMarkovModel.make
  cases h1 : valid_tranisition_matrix t with
  | error a => simp [h1, Bind.bind, Except.bind]
  | ok u =>
    cases u
    cases h2 : valid_sampling_probabilities t.shape e with
    | error a => simp [h2, Bind.bind, Except.bind]
    | ok u => cases u; simp [Bind.bind, Except.bind]

unseal Rat.add Rat.mul Rat.inv Rat.sub in
/-- **C2**: model construction succeeds iff the transition matrix is 2-D,
square, entrywise non-negative with row sums at most `1 + 1e-5`, and the
emission matrix is 2-D, entrywise non-negative with row sums at most
`1 + 1e-5`; in particular (second conjunct) a model whose transition row
sums to `0.5` and whose emission matrix has two rows against one state is
accepted. -/
theorem c2_construction_iff :
    (∀ t e : NDArray,
      (∃ hmm, HiddenMarkovModel.make t e = .ok hmm) ↔
        (t.shape.length = 2 ∧ t.shape.getD 0 0 = t.shape.getD 1 0 ∧
         (∀ x ∈ t.data, 0 ≤ x) ∧ (∀ s ∈ t.rowSums, s ≤ 1 + tol) ∧
         e.shape.length = 2 ∧ (∀ x ∈ e.data, 0 ≤ x) ∧
         (∀ s ∈ e.rowSums, s ≤ 1 + tol))) ∧
    HiddenMarkovModel.make t05 eC1 = .ok ⟨t05, eC1⟩ := by
  constructor
  · intro t e
    rw [make_ok_iff, valid_tranisition_matrix_ok_iff,
      valid_sampling_probabilities_ok_iff]
    constructor
    · rintro ⟨⟨hl, hsq, hnn, hrs⟩, hdim, henn, hers⟩
      exact ⟨hl, hsq, hnn, hrs, by omega, henn, hers⟩
    · rintro ⟨hl, hsq, hnn, hrs, hel, henn, hers⟩
      exact ⟨⟨hl, hsq, hnn, hrs⟩, by omega, henn, hers⟩
  · decide

/-! ### The identity model (C6) -/

/-- `getD` of an all-zero list is zero. -/
theorem getD_map_zero (r : List ℚ) (j : Nat) :
    (r.map (fun _ => (0 : ℚ))).getD j 0 = 0 := by
  rcases lt_or_ge j r.length with h | h
  · rw [List.getD_eq_getElem _ 0 (by simpa using h)]
    simp
  · rw [List.getD_eq_default _ 0 (by simpa using h)]

/-- Chunking the flattening of a rectangular row list recovers the rows. -/
theorem flatten_chunk (c : Nat) :
    ∀ (rs : List (List ℚ)) (i : Nat), (∀ r ∈ rs, r.length = c) →
      i < rs.length → ((rs.flatten.drop (i * c)).take c = rs.getD i [])
  | [], i, _, hi => by simp at hi
  | r :: rest, 0, h, _ => by
    have hr : r.length = c := h r (by simp)
    simp only [Nat.zero_mul, List.drop_zero, List.flatten_cons, List.getD_cons_zero]
    rw [← hr]
    exact List.take_left r rest.flatten
  | r :: rest, i + 1, h, hi => by
    have hr : r.length = c := h r (by simp)
    have hstep : ((r :: rest).flatten.drop ((i + 1) * c)) = rest.flatten.drop (i * c) := by
      have : (i + 1) * c = c + i * c := by ring
      rw [this, ← List.drop_drop, List.flatten_cons, ← hr, List.drop_left]
    rw [hstep, List.getD_cons_succ]
    exact flatten_chunk c rest i (fun q hq => h q (by simp [hq])) (by simpa using hi)

/-- Reading every index of a row list back with `getD` is the identity. -/
theorem range_map_getD (l : List (List ℚ)) :
    (List.range l.length).map (fun i => l.getD i []) = l := by
  apply List.ext_getElem (by simp)
  intro i h1 h2
  simp [List.getD, List.getElem?_eq_getElem h2]

theorem identityRows_row_length (n : Nat) :
    ∀ r ∈ identityRows n, r.length = n := by
  intro r hr
  obtain ⟨i, _, rfl⟩ := List.mem_map.mp hr
  simp

/-- The rows of the identity `NDArray` are the identity rows. -/
theorem toRows_idND (n : Nat) : (idND n).toRows = identityRows n := by
  have hlen : (identityRows n).length = n := by simp [identityRows]
  unfold NDArray.toRows
  have hrow : ∀ i < n, (idND n).row i = (identityRows n).getD i [] := by
    intro i hi
    unfold NDArray.row
    have hc : (idND n).ncols = n := rfl
    rw [hc]
    exact flatten_chunk n (identityRows n) i (identityRows_row_length n) (by omega)
  have hnr : (idND n).nrows = n := rfl
  rw [hnr]
  have hfin := range_map_getD (identityRows n)
  rw [hlen] at hfin
  calc (List.range n).map (idND n).row
      = (List.range n).map (fun i => (identityRows n).getD i []) := by
        apply List.map_congr_left
        intro i hi
        exact hrow i (List.mem_range.mp hi)
    _ = identityRows n := hfin

/-- The sum of one identity row. -/
theorem sum_ite_row (i : Nat) :
    ∀ n : Nat, (((List.range n).map (fun j => if i = j then (1 : ℚ) else 0)).sum
      = if i < n then 1 else 0)
  | 0 => by simp
  | n + 1 => by
    rw [List.range_succ, List.map_append, List.sum_append, sum_ite_row i n]
    simp only [List.map_cons, List.map_nil, List.sum_cons, List.sum_nil, add_zero]
    by_cases h1 : i < n
    · rw [if_pos h1, if_neg (by omega : ¬ i = n), if_pos (by omega : i < n + 1)]
      norm_num
    · by_cases h2 : i = n
      · rw [if_neg h1, if_pos h2, if_pos (by omega : i < n + 1)]
        norm_num
      · rw [if_neg h1, if_neg h2, if_neg (by omega : ¬ i < n + 1)]
        norm_num

/-- The identity model is accepted by construction-time validation, for
every `n`. -/
theorem make_idHMM (n : Nat) :
    HiddenMarkovModel.make (idND n) (onesE n) = .ok (idHMM n) := by
  have ht : valid_tranisition_matrix (idND n) = .ok () := by
    rw [valid_tranisition_matrix_ok_iff]
    refine ⟨rfl, rfl, ?_, ?_⟩
    · intro x hx
      obtain ⟨r, hr, hxr⟩ := List.mem_flatten.mp hx
      obtain ⟨i, _, rfl⟩ := List.mem_map.mp hr
      obtain ⟨j, _, rfl⟩ := List.mem_map.mp hxr
      split_ifs <;> norm_num
    · intro s hs
      unfold NDArray.rowSums at hs
      rw [toRows_idND] at hs
      obtain ⟨r, hr, rfl⟩ := List.mem_map.mp hs
      obtain ⟨i, hi, rfl⟩ := List.mem_map.mp hr
      rw [sum_ite_row i n, if_pos (List.mem_range.mp hi)]
      norm_num [tol]
  have he : valid_sampling_probabilities (idND n).shape (onesE n) = .ok () := by
    rw [valid_sampling_probabilities_ok_iff]
    refine ⟨rfl, ?_, ?_⟩
    · intro x hx
      rw [List.eq_of_mem_replicate hx]
      norm_num
    · intro s hs
      unfold NDArray.rowSums NDArray.toRows at hs
      obtain ⟨r, hr, rfl⟩ := List.mem_map.mp hs
      obtain ⟨i, hi, rfl⟩ := List.mem_map.mp hr
      have hrow : (onesE n).row i = [1] := by
        unfold NDArray.row
        have hc : (onesE n).ncols = 1 := rfl
        have hd : (onesE n).data = List.replicate n 1 := rfl
        have hi2 : i < n := by
          have := List.mem_range.mp hi
          simpa [NDArray.nrows, onesE] using this
        rw [hc, hd, Nat.mul_one, List.drop_replicate, List.take_replicate]
        have : min 1 (n - i) = 1 := by omega
        rw [this]
        rfl
      rw [hrow]
      norm_num [tol]
  unfold HiddenMarkovModel.make
  rw [ht, he]
  rfl

/-- Every entry of every row of the kernel matrix built from the identity
model is zero. -/
theorem idHMM_kernel_rows_zero (n : Nat) :
    ∀ r ∈ transposeM n (matSub (idND n).toRows (identityRows n)),
      ∀ j, entry r j = 0 := by
  intro r hr j
  rw [toRows_idND] at hr
  unfold matSub at hr
  rw [List.zipWith_same] at hr
  unfold transposeM at hr
  obtain ⟨k, _, rfl⟩ := List.mem_map.mp hr
  have hmap : (identityRows n).map (fun x => List.zipWith (fun a b => a - b) x x)
      = (identityRows n).map (fun x => x.map (fun _ => (0:ℚ))) := by
    apply List.map_congr_left
    intro x _
    rw [List.zipWith_same]
    apply List.map_congr_left
    intro y _
    ring
  rw [hmap, List.map_map]
  unfold entry
  rcases lt_or_ge j (identityRows n).length with h | h
  · rw [List.getD_eq_getElem _ 0 (by simpa using h)]
    simp [getD_map_zero]
  · rw [List.getD_eq_default _ 0 (by simpa using h)]

/-- `extractPivot` finds nothing in rows whose column `j` is all zero. -/
theorem extractPivot_none (j : Nat) :
    ∀ rows : List (List ℚ), (∀ r ∈ rows, entry r j = 0) →
      extractPivot j rows = none
  | [], _ => rfl
  | r :: rest, h => by
    unfold extractPivot
    rw [if_neg (by simpa using h r (by simp))]
    rw [extractPivot_none j rest (fun q hq => h q (by simp [hq]))]

/-- Gauss-Jordan elimination leaves an all-zero matrix untouched. -/
theorem elim_zero_const (c : Nat) (A : List (List ℚ))
    (h : ∀ r ∈ A, ∀ j, entry r j = 0) :
    ∀ js : List Nat, js.foldl (elimStep c) ⟨[], A⟩ = ⟨[], A⟩
  | [] => rfl
  | j :: js => by
    rw [List.foldl_cons]
    have hstep : elimStep c ⟨[], A⟩ j = ⟨[], A⟩ := by
      unfold elimStep
      rw [extractPivot_none j A (fun r hr => h r hr j)]
    rw [hstep]
    exact elim_zero_const c A h js

/-- The kernel basis of the identity model has one vector per state. -/
theorem stationaryBasis_idHMM_length (n : Nat) :
    (stationaryBasis (idHMM n)).length = n := by
  have h1 : (idHMM n).transition_matrix = idND n := rfl
  have hnr : (idND n).nrows = n := rfl
  simp only [stationaryBasis, null_space, rrefPivots, h1, hnr]
  rw [elim_zero_const n _ (idHMM_kernel_rows_zero n) (List.range n)]
  simp

/-- **C6**: a validated model whose kernel basis has more than one vector
makes `steady_state_probabilities` fail with the non-uniqueness error
carrying the basis; in particular, for every `n ≥ 2` the `n × n` identity
transition matrix (with an all-ones single-symbol emission matrix) is
validated and fails exactly this way. -/
theorem c6_identity_nonunique :
    (∀ (t e : NDArray) (hmm : HiddenMarkovModel),
        HiddenMarkovModel.make t e = .ok hmm →
        1 < (stationaryBasis hmm).length →
        hmm.steady_state_probabilities =
          .error (.nonUniqueStationary (stationaryBasis hmm))) ∧
    (∀ n : Nat, 2 ≤ n →
        HiddenMarkovModel.make (idND n) (onesE n) = .ok (idHMM n) ∧
        (stationaryBasis (idHMM n)).length = n ∧
        (idHMM n).steady_state_probabilities =
          .error (.nonUniqueStationary (stationaryBasis (idHMM n)))) := by
  have herr : ∀ hmm : HiddenMarkovModel, 1 < (stationaryBasis hmm).length →
      hmm.steady_state_probabilities =
        .error (.nonUniqueStationary (stationaryBasis hmm)) := by
    intro hmm h
    unfold HiddenMarkovModel.steady_state_probabilities
    rw [if_pos h]
  constructor
  · intro t e hmm _ h
    exact herr hmm h
  · intro n hn
    refine ⟨make_idHMM n, stationaryBasis_idHMM_length n, ?_⟩
    apply herr
    rw [stationaryBasis_idHMM_length n]
    omega

/-- Witness for `c6_identity_nonunique` at `n = 2`. -/
theorem c6_witness :
    HiddenMarkovModel.make (idND 2) (onesE 2) = .ok (idHMM 2) ∧
    (stationaryBasis (idHMM 2)).length = 2 ∧
    (idHMM 2).steady_state_probabilities =
      .error (.nonUniqueStationary (stationaryBasis (idHMM 2))) :=
  c6_identity_nonunique.2 2 (by omega)

/-! ### Shared facts about the decoder's building blocks -/

theorem except_bind_ok {ε α β : Type} (a : α) (f : α → Except ε β) :
    (Except.ok a >>= f : Except ε β) = f a := rfl

theorem except_bind_err {ε α β : Type} (e : ε) (f : α → Except ε β) :
    (Except.error e >>= f : Except ε β) = Except.error e := rfl

theorem toRows_length (a : NDArray) : a.toRows.length = a.nrows := by
  simp [NDArray.toRows]

/-- `row` agrees with `getD` into `toRows` inside the row range. -/
theorem row_eq_toRows_getD (a : NDArray) (i : Nat) (hi : i < a.nrows) :
    a.toRows.getD i [] = a.row i := by
  unfold NDArray.toRows
  rw [List.getD_eq_getElem _ [] (by simpa using hi)]
  simp

/-- Every kernel-basis vector has one coordinate per matrix column. -/
theorem null_space_vec_length (c : Nat) (A : List (List ℚ)) :
    ∀ v ∈ null_space c A, v.length = c := by
  intro v hv
  simp only [null_space, List.mem_map, List.mem_filter] at hv
  obtain ⟨f, _, rfl⟩ := hv
  simp

/-- A successful stationary vector is empty (trivial kernel) or has one
entry per state. -/
theorem steady_ok_length (hmm : HiddenMarkovModel) (ss : List ℚ)
    (h : hmm.steady_state_probabilities = .ok ss) :
    ss = [] ∨ ss.length = hmm.transition_matrix.nrows := by
  by_cases hb : 1 < (stationaryBasis hmm).length
  · rw [HiddenMarkovModel.steady_state_probabilities, if_pos hb] at h
    cases h
  · rw [HiddenMarkovModel.steady_state_probabilities, if_neg hb] at h
    rcases hbasis : stationaryBasis hmm with _ | ⟨v, rest⟩
    · rw [hbasis] at h
      left
      simpa using h.symm
    · rcases rest with _ | ⟨w, t⟩
      · rw [hbasis] at h
        right
        have hv : v ∈ stationaryBasis hmm := by rw [hbasis]; simp
        have hvlen : v.length = hmm.transition_matrix.nrows :=
          null_space_vec_length _ _ v hv
        have : ss = (v ++ []).map (fun x => x / (v ++ []).sum) := by
          simpa using h.symm
        rw [this]
        simpa using hvlen
      · exfalso
        rw [hbasis] at hb
        simp only [List.length_cons, not_lt] at hb
        omega

/-- In-bounds non-negative indices resolve directly. -/
theorem pyIndex_nonneg (m : Nat) (v : Int) (h0 : 0 ≤ v) (h1 : v < (m : Int)) :
    pyIndex m v = some v.toNat := by
  unfold pyIndex
  rw [if_pos ⟨h0, h1⟩]

/-- `pyIndex` fails exactly outside `[-m, m)`. -/
theorem pyIndex_eq_none_iff (m : Nat) (v : Int) :
    pyIndex m v = none ↔ ¬ (-(m : Int) ≤ v ∧ v < m) := by
  unfold pyIndex
  split_ifs with h1 h2
  · simp only [reduceCtorEq, false_iff, not_not]
    exact ⟨by omega, h1.2⟩
  · simp only [reduceCtorEq, false_iff, not_not]
    exact ⟨h2.1, by omega⟩
  · simp only [true_iff]
    omega

/-- Indices inside `[-m, m)` resolve to something. -/
theorem pyIndex_isSome (m : Nat) (v : Int) (h : -(m : Int) ≤ v ∧ v < m) :
    ∃ j, pyIndex m v = some j := by
  cases hp : pyIndex m v with
  | some j => exact ⟨j, rfl⟩
  | none => exact absurd h ((pyIndex_eq_none_iff m v).mp hp)

theorem samplingColumn_some (hmm : HiddenMarkovModel) (marble : Int) (j : Nat)
    (hj : pyIndex hmm.sampling_probabilities.ncols marble = some j) :
    samplingColumn hmm marble =
      .ok (hmm.sampling_probabilities.toRows.map (fun r => entry r j)) := by
  unfold samplingColumn
  rw [hj]

theorem samplingColumn_none (hmm : HiddenMarkovModel) (marble : Int)
    (hj : pyIndex hmm.sampling_probabilities.ncols marble = none) :
    samplingColumn hmm marble = .error .marbleIndex := by
  unfold samplingColumn
  rw [hj]

theorem broadcastMul_eq_zipWith (a b : List ℚ) (h : a.length = b.length) :
    broadcastMul a b = .ok (List.zipWith (fun x y => x * y) a b) := by
  unfold broadcastMul
  rw [if_pos h]

/-- A successful broadcast has the length of one of its operands. -/
theorem broadcastMul_ok_length (a b p : List ℚ)
    (h : broadcastMul a b = .ok p) :
    p.length = a.length ∨ p.length = b.length := by
  unfold broadcastMul at h
  split_ifs at h with h1 h2 h3
  · cases h
    left
    simp [h1]
  · cases h
    right
    simp
  · cases h
    left
    simp

/-! ### C10: negative observation indices wrap around -/

/-- Replacing an in-range negative index by its non-negative counterpart
does not change `pyIndex`. -/
theorem pyIndex_norm (m : Nat) (v : Int) :
    pyIndex m (if -(m : Int) ≤ v ∧ v < 0 then v + m else v) = pyIndex m v := by
  split_ifs with h
  · unfold pyIndex
    rw [if_pos (by omega : (0:Int) ≤ v + m ∧ v + m < m), if_neg (by omega),
      if_pos ⟨h.1, h.2⟩]
  · rfl

theorem stepBag_norm (hmm : HiddenMarkovModel) (probs : List ℚ) (v : Int)
    (bag : Nat) :
    stepBag hmm probs
        (if -(hmm.sampling_probabilities.ncols : Int) ≤ v ∧ v < 0
         then v + hmm.sampling_probabilities.ncols else v) bag =
      stepBag hmm probs v bag := by
  unfold stepBag
  rw [pyIndex_norm]

theorem stepBags_norm (hmm : HiddenMarkovModel) (probs : List ℚ) (v : Int) :
    ∀ bags : List Nat,
      stepBags hmm probs
          (if -(hmm.sampling_probabilities.ncols : Int) ≤ v ∧ v < 0
           then v + hmm.sampling_probabilities.ncols else v) bags =
        stepBags hmm probs v bags
  | [] => rfl
  | bag :: rest => by
    unfold stepBags
    rw [stepBag_norm, stepBags_norm hmm probs v rest]

theorem stepMarble_norm (hmm : HiddenMarkovModel) (probs : List ℚ) (v : Int) :
    stepMarble hmm probs
        (if -(hmm.sampling_probabilities.ncols : Int) ≤ v ∧ v < 0
         then v + hmm.sampling_probabilities.ncols else v) =
      stepMarble hmm probs v := by
  unfold stepMarble
  rw [stepBags_norm]

theorem forward_norm (hmm : HiddenMarkovModel) :
    ∀ (ms : List Int) (probs : List ℚ),
      forward hmm probs (ms.map (fun v =>
        if -(hmm.sampling_probabilities.ncols : Int) ≤ v ∧ v < 0
        then v + hmm.sampling_probabilities.ncols else v)) =
      forward hmm probs ms
  | [], probs => rfl
  | v :: ms, probs => by
    rw [List.map_cons]
    unfold forward
    rw [stepMarble_norm]
    cases h : stepMarble hmm probs v with
    | error a => simp [Bind.bind, Except.bind, h]
    | ok r =>
      simp only [Bind.bind, Except.bind, h]
      rw [forward_norm hmm ms r.1]

/-- `viterbi` only depends on the sequence through `viterbi_forward`. -/
theorem viterbi_congr (hmm : HiddenMarkovModel) (s1 s2 : List Int)
    (h : viterbi_forward hmm s1 = viterbi_forward hmm s2) :
    viterbi hmm s1 = viterbi hmm s2 := by
  unfold viterbi
  rw [h]

theorem viterbi_forward_norm (hmm : HiddenMarkovModel) (obs : List Int) :
    viterbi_forward hmm (obs.map (fun v =>
      if -(hmm.sampling_probabilities.ncols : Int) ≤ v ∧ v < 0
      then v + hmm.sampling_probabilities.ncols else v)) =
    viterbi_forward hmm obs := by
  cases obs with
  | nil => rfl
  | cons o os =>
    simp only [viterbi_forward, List.map_cons]
    have hcol : samplingColumn hmm
        (if -(hmm.sampling_probabilities.ncols : Int) ≤ o ∧ o < 0
         then o + hmm.sampling_probabilities.ncols else o) =
        samplingColumn hmm o := by
      unfold samplingColumn
      rw [pyIndex_norm]
    rw [hcol]
    simp only [forward_norm hmm os]

/-- **C10**: decode treats an observation value `v ∈ [-m, 0)` with
numpy's negative-index semantics, returning exactly what it returns when
`v` is replaced by `m + v` (values outside `[-m, m)` are mapped to
themselves, so the statement quantifies over all sequences and all
models). -/
theorem c10_negative_index_wraparound (hmm : HiddenMarkovModel)
    (obs : List Int) :
    viterbi hmm (obs.map (fun v =>
      if -(hmm.sampling_probabilities.ncols : Int) ≤ v ∧ v < 0
      then v + hmm.sampling_probabilities.ncols else v)) =
    viterbi hmm obs :=
  viterbi_congr hmm _ _ (viterbi_forward_norm hmm obs)

/-! ### C1: the forward pass against the spec's recurrence -/

/-- The code's parent scan equals the spec's scan whenever every candidate
index stays inside the transition matrix. -/
theorem bestParentAux_eq_spec (Tr : List (List ℚ)) (bag : Nat) :
    ∀ (probs : List ℚ) (i : Nat) (acc : ℚ × Nat),
      i + probs.length ≤ Tr.length →
      bestParentAux Tr bag i probs acc = .ok (spec_scan Tr bag i probs acc)
  | [], i, acc, _ => rfl
  | pp :: rest, i, acc, h => by
    have hi : i < Tr.length := by
      simp only [List.length_cons] at h
      omega
    unfold bestParentAux spec_scan
    rw [dif_pos hi]
    have hget : Tr.get ⟨i, hi⟩ = Tr.getD i [] :=
      (List.getD_eq_getElem Tr [] hi).symm
    rw [hget]
    split_ifs with hcmp
    · exact bestParentAux_eq_spec Tr bag rest (i + 1) _
        (by simp only [List.length_cons] at h; omega)
    · exact bestParentAux_eq_spec Tr bag rest (i + 1) acc
        (by simp only [List.length_cons] at h; omega)

/-- A bag step with an in-range symbol computes the spec's quantities. -/
theorem stepBag_eq (hmm : HiddenMarkovModel) (probs : List ℚ) (marble : Int)
    (bag j : Nat)
    (hlen : probs.length ≤ hmm.transition_matrix.toRows.length)
    (hbag : bag < hmm.sampling_probabilities.nrows)
    (hj : pyIndex hmm.sampling_probabilities.ncols marble = some j) :
    stepBag hmm probs marble bag =
      .ok (spec_max hmm.transition_matrix.toRows probs bag *
             entry (hmm.sampling_probabilities.toRows.getD bag []) j,
           spec_best_prev hmm.transition_matrix.toRows probs bag) := by
  unfold stepBag
  rw [bestParentAux_eq_spec hmm.transition_matrix.toRows bag probs 0 (0, 0)
    (by omega)]
  simp only [Bind.bind, Except.bind, if_pos hbag, hj,
    row_eq_toRows_getD hmm.sampling_probabilities bag hbag,
    spec_max, spec_best_prev]

/-- A bag step with an out-of-range symbol raises the marble
`IndexError`. -/
theorem stepBag_err (hmm : HiddenMarkovModel) (probs : List ℚ) (marble : Int)
    (bag : Nat)
    (hlen : probs.length ≤ hmm.transition_matrix.toRows.length)
    (hbag : bag < hmm.sampling_probabilities.nrows)
    (hj : pyIndex hmm.sampling_probabilities.ncols marble = none) :
    stepBag hmm probs marble bag = .error .marbleIndex := by
  unfold stepBag
  rw [bestParentAux_eq_spec hmm.transition_matrix.toRows bag probs 0 (0, 0)
    (by omega)]
  simp only [Bind.bind, Except.bind, if_pos hbag, hj]

/-- Collecting ok bag steps collects the mapped results. -/
theorem stepBags_map (hmm : HiddenMarkovModel) (probs : List ℚ) (marble : Int)
    (f : Nat → ℚ × Nat) :
    ∀ bags : List Nat, (∀ b ∈ bags, stepBag hmm probs marble b = .ok (f b)) →
      stepBags hmm probs marble bags = .ok (bags.map f)
  | [], _ => rfl
  | bag :: rest, h => by
    unfold stepBags
    rw [h bag (by simp),
      stepBags_map hmm probs marble f rest (fun b hb => h b (by simp [hb]))]
    rfl

/-- One forward step with an in-range symbol is the spec's step. -/
theorem stepMarble_eq (hmm : HiddenMarkovModel) (probs : List ℚ) (marble : Int)
    (j : Nat)
    (hrows : hmm.sampling_probabilities.nrows = hmm.transition_matrix.nrows)
    (hlen : probs.length ≤ hmm.transition_matrix.nrows)
    (hj : pyIndex hmm.sampling_probabilities.ncols marble = some j) :
    stepMarble hmm probs marble =
      .ok (spec_step hmm.transition_matrix.nrows hmm.transition_matrix.toRows
             hmm.sampling_probabilities.toRows probs j) := by
  unfold stepMarble
  rw [stepBags_map hmm probs marble
      (fun bag => (spec_max hmm.transition_matrix.toRows probs bag *
          entry (hmm.sampling_probabilities.toRows.getD bag []) j,
        spec_best_prev hmm.transition_matrix.toRows probs bag))
      (List.range hmm.transition_matrix.nrows)
      (fun b hb => stepBag_eq hmm probs marble b j
        (by rw [toRows_length]; exact hlen)
        (by rw [hrows]; exact List.mem_range.mp hb) hj)]
  simp only [Bind.bind, Except.bind, List.map_map]
  rfl

/-- One forward step with an out-of-range symbol raises the marble
`IndexError` at the first bag. -/
theorem stepMarble_err (hmm : HiddenMarkovModel) (probs : List ℚ) (marble : Int)
    (hrows : hmm.sampling_probabilities.nrows = hmm.transition_matrix.nrows)
    (hn : 1 ≤ hmm.transition_matrix.nrows)
    (hlen : probs.length ≤ hmm.transition_matrix.nrows)
    (hj : pyIndex hmm.sampling_probabilities.ncols marble = none) :
    stepMarble hmm probs marble = .error .marbleIndex := by
  unfold stepMarble
  obtain ⟨k, hk⟩ : ∃ k, hmm.transition_matrix.nrows = k + 1 :=
    ⟨hmm.transition_matrix.nrows - 1, by omega⟩
  rw [hk, List.range_succ_eq_map]
  unfold stepBags
  rw [stepBag_err hmm probs marble 0
    (by rw [toRows_length]; exact hlen) (by omega) hj]
  rfl

/-- The initial broadcast product is the spec's initial vector. -/
theorem zipWith_eq_spec_init (n : Nat) (ss : List ℚ) (Er : List (List ℚ))
    (j : Nat) (hss : ss.length = n) (hEr : Er.length = n) :
    List.zipWith (fun x y => x * y) ss (Er.map (fun r => entry r j)) =
      spec_init n ss Er j := by
  apply List.ext_getElem
  · simp [spec_init, hss, hEr]
  · intro i h1 h2
    simp only [spec_init] at h2 ⊢
    have hin : i < n := by simpa using h2
    rw [List.getElem_zipWith]
    simp only [List.getElem_map, List.getElem_range]
    unfold entry
    rw [List.getD_eq_getElem ss 0 (by omega),
      List.getD_eq_getElem Er [] (by omega)]

/-- The forward loop on in-range symbols computes the spec's recurrence
(with the running-maximum step). -/
theorem forward_eq_spec (hmm : HiddenMarkovModel)
    (hrows : hmm.sampling_probabilities.nrows = hmm.transition_matrix.nrows) :
    ∀ (ms : List Int) (probs : List ℚ),
      probs.length = hmm.transition_matrix.nrows →
      (∀ v ∈ ms, 0 ≤ v ∧ v < (hmm.sampling_probabilities.ncols : Int)) →
      forward hmm probs ms =
        .ok (spec_forward hmm.transition_matrix.nrows
          hmm.transition_matrix.toRows hmm.sampling_probabilities.toRows
          probs (ms.map Int.toNat))
  | [], probs, _, _ => rfl
  | v :: ms, probs, hlen, hv => by
    have hv0 := hv v (by simp)
    unfold forward
    rw [stepMarble_eq hmm probs v v.toNat hrows (le_of_eq hlen)
      (pyIndex_nonneg _ v hv0.1 hv0.2)]
    simp only [Bind.bind, Except.bind]
    rw [forward_eq_spec hmm hrows ms _
      (by simp [spec_step]) (fun u hu => hv u (by simp [hu]))]
    simp only [List.map_cons]
    rfl

/-- **C1 (amended)**: for a validated model whose emission matrix has one
row per state and whose stationary computation returns a length-`n` vector
`ss`, decoding a non-empty in-range observation sequence runs exactly the
spec's forward recurrence, except that the probability update multiplies
the emission entry by the scan's final *running maximum* — which equals
`prob[best_prev] * T[best_prev][s]` whenever some candidate exceeded `0.0`,
and `0.0` otherwise — rather than unconditionally by
`prob[best_prev] * T[best_prev][s]`.  The initial vector is
`stationary[s] * E[s][obs[0]]`, and `best_prev` scans prior states in index
order with strict greater-than against a running maximum initialized to
`0.0` (so an all-zero candidate set records backpointer `0`). -/
theorem c1_forward_recurrence (hmm : HiddenMarkovModel) (ss : List ℚ)
    (o : Int) (os : List Int)
    (_hval : HiddenMarkovModel.make hmm.transition_matrix
      hmm.sampling_probabilities = .ok hmm)
    (hrows : hmm.sampling_probabilities.nrows = hmm.transition_matrix.nrows)
    (hss : hmm.steady_state_probabilities = .ok ss)
    (hlen : ss.length = hmm.transition_matrix.nrows)
    (hobs : ∀ v ∈ o :: os, 0 ≤ v ∧ v < (hmm.sampling_probabilities.ncols : Int)) :
    viterbi_forward hmm (o :: os) =
      .ok (spec_forward hmm.transition_matrix.nrows
        hmm.transition_matrix.toRows hmm.sampling_probabilities.toRows
        (spec_init hmm.transition_matrix.nrows ss
          hmm.sampling_probabilities.toRows o.toNat)
        (os.map Int.toNat)) := by
  have ho := hobs o (by simp)
  simp only [viterbi_forward]
  rw [hss, samplingColumn_some hmm o o.toNat (pyIndex_nonneg _ o ho.1 ho.2)]
  simp only [Bind.bind, Except.bind]
  rw [broadcastMul_eq_zipWith ss _
    (by rw [List.length_map, toRows_length, hrows, hlen])]
  rw [zipWith_eq_spec_init hmm.transition_matrix.nrows ss
    hmm.sampling_probabilities.toRows o.toNat hlen
    (by rw [toRows_length, hrows])]
  exact forward_eq_spec hmm hrows os _ (by simp [spec_init])
    (fun u hu => hobs u (by simp [hu]))

unseal Rat.add Rat.mul Rat.inv Rat.sub in
/-- **C1 (counterexample)**: on the validated model `MC1` (in-range
observations `[0, 0]`, unique stationary vector `[-1, 2]` of length `n`,
emission rows = `n`), the code's forward pass does *not* satisfy the
claim's update formula `new_prob[s] = prob[best_prev] * T[best_prev][s] *
E[s][obs[t]]`: at state `0` every candidate is `≤ 0`, so the code writes
`0.0 * E[0][0] = 0` where the claim's formula gives `-1`. -/
theorem c1_counterexample :
    HiddenMarkovModel.make tC1 eC1 = .ok MC1 ∧
    MC1.steady_state_probabilities = .ok [-1, 2] ∧
    (∀ v ∈ [(0 : Int), 0], 0 ≤ v ∧ v < (MC1.sampling_probabilities.ncols : Int)) ∧
    viterbi_forward MC1 [0, 0] = .ok ([0, 400001/200000], [[0, 1]]) ∧
    spec_forward_claim MC1.transition_matrix.nrows MC1.transition_matrix.toRows
        MC1.sampling_probabilities.toRows
        (spec_init MC1.transition_matrix.nrows [-1, 2]
          MC1.sampling_probabilities.toRows 0) [0] =
      ([-1, 400001/200000], [[0, 1]]) ∧
    viterbi_forward MC1 [0, 0] ≠
      .ok (spec_forward_claim MC1.transition_matrix.nrows
        MC1.transition_matrix.toRows MC1.sampling_probabilities.toRows
        (spec_init MC1.transition_matrix.nrows [-1, 2]
          MC1.sampling_probabilities.toRows 0) [0]) := by decide

unseal Rat.add Rat.mul Rat.inv Rat.sub in
/-- Witness for `c1_forward_recurrence` at the two-state example. -/
theorem c1_witness :
    viterbi_forward M9 [0, 0, 1, 0] =
      .ok (spec_forward M9.transition_matrix.nrows M9.transition_matrix.toRows
        M9.sampling_probabilities.toRows
        (spec_init M9.transition_matrix.nrows [5/7, 2/7]
          M9.sampling_probabilities.toRows 0) [0, 1, 0]) :=
  c1_forward_recurrence M9 [5/7, 2/7] 0 [0, 1, 0] (by decide) (by decide)
    (by decide) (by decide) (by decide)

/-! ### C3: lazy out-of-range failure -/

/-- If every symbol before `v` is in `[-m, m)` and `v` is not, the forward
loop errors with the marble `IndexError` at `v`'s step, whatever follows. -/
theorem forward_first_bad (hmm : HiddenMarkovModel)
    (hrows : hmm.sampling_probabilities.nrows = hmm.transition_matrix.nrows)
    (hn : 1 ≤ hmm.transition_matrix.nrows) (v : Int)
    (hv : pyIndex hmm.sampling_probabilities.ncols v = none) (r : List Int) :
    ∀ (p2 : List Int) (probs : List ℚ),
      probs.length = hmm.transition_matrix.nrows →
      (∀ u ∈ p2, -(hmm.sampling_probabilities.ncols : Int) ≤ u ∧
        u < hmm.sampling_probabilities.ncols) →
      forward hmm probs (p2 ++ v :: r) = .error .marbleIndex
  | [], probs, hlen, _ => by
    simp only [List.nil_append]
    unfold forward
    rw [stepMarble_err hmm probs v hrows hn (le_of_eq hlen) hv]
    rfl
  | u :: p2, probs, hlen, hu => by
    obtain ⟨j, hj⟩ := pyIndex_isSome _ u (hu u (by simp))
    simp only [List.cons_append]
    unfold forward
    rw [stepMarble_eq hmm probs u j hrows (le_of_eq hlen) hj]
    simp only [Bind.bind, Except.bind]
    rw [forward_first_bad hmm hrows hn v hv r p2 _
      (by simp [spec_step]) (fun q hq => hu q (by simp [hq]))]

/-- **C3 (amended)**: for a validated model with one emission row per
state (`n ≥ 1`) whose stationary computation returns a length-`n` vector,
decoding a sequence whose first out-of-range symbol (outside `[-m, m)`,
not merely `[0, m)`: see `c3_counterexample_negative_ok`) is `v` fails
with the marble `IndexError`, and the failure is lazy: the result equals
the result of decoding the prefix that ends at `v`, whatever follows
`v`. -/
theorem c3_lazy_out_of_range (hmm : HiddenMarkovModel) (ss : List ℚ)
    (p r : List Int) (v : Int)
    (_hval : HiddenMarkovModel.make hmm.transition_matrix
      hmm.sampling_probabilities = .ok hmm)
    (hrows : hmm.sampling_probabilities.nrows = hmm.transition_matrix.nrows)
    (hn : 1 ≤ hmm.transition_matrix.nrows)
    (hss : hmm.steady_state_probabilities = .ok ss)
    (hlen : ss.length = hmm.transition_matrix.nrows)
    (hp : ∀ u ∈ p, -(hmm.sampling_probabilities.ncols : Int) ≤ u ∧
      u < hmm.sampling_probabilities.ncols)
    (hv : ¬ (-(hmm.sampling_probabilities.ncols : Int) ≤ v ∧
      v < hmm.sampling_probabilities.ncols)) :
    viterbi hmm (p ++ v :: r) = .error .marbleIndex ∧
    viterbi hmm (p ++ v :: r) = viterbi hmm (p ++ [v]) := by
  have hvnone : pyIndex hmm.sampling_probabilities.ncols v = none :=
    (pyIndex_eq_none_iff _ _).mpr hv
  have key : ∀ rr : List Int,
      viterbi_forward hmm (p ++ v :: rr) = .error .marbleIndex := by
    intro rr
    cases p with
    | nil =>
      simp only [List.nil_append, viterbi_forward]
      rw [hss, samplingColumn_none hmm v hvnone]
      rfl
    | cons f p2 =>
      obtain ⟨j, hj⟩ := pyIndex_isSome _ f (hp f (by simp))
      simp only [List.cons_append, viterbi_forward]
      rw [hss, samplingColumn_some hmm f j hj]
      simp only [except_bind_ok]
      rw [broadcastMul_eq_zipWith ss _
        (by rw [List.length_map, toRows_length, hrows, hlen])]
      simp only [except_bind_ok]
      rw [forward_first_bad hmm hrows hn v hvnone rr p2 _
        (by simp [hlen, toRows_length, hrows])
        (fun q hq => hp q (by simp [hq]))]
  constructor
  · unfold viterbi
    rw [key r]
    rfl
  · apply viterbi_congr
    rw [key r, show p ++ [v] = p ++ v :: [] from rfl, key []]

unseal Rat.add Rat.mul Rat.inv Rat.sub in
/-- **C3 (counterexample)**: on the validated one-state model with a
single emission symbol (`m = 1`), the observation `-1` lies outside
`[0, m)` but decoding `[-1]` succeeds (numpy's negative indexing reads
column `0`), so an observation outside `[0, m)` does not imply failure. -/
theorem c3_counterexample_negative_ok :
    HiddenMarkovModel.make t1 e1 = .ok M1 ∧
    ¬ ((0 : Int) ≤ -1 ∧ (-1 : Int) < (M1.sampling_probabilities.ncols : Int)) ∧
    viterbi M1 [-1] = .ok [0] := by decide

unseal Rat.add Rat.mul Rat.inv Rat.sub in
/-- Witness for `c3_lazy_out_of_range`: on the two-state example with
`m = 2`, the sequence `[0, 5, 9]` fails with the marble `IndexError` at
symbol `5`, and the tail `9` is never consulted. -/
theorem c3_witness :
    viterbi M9 [0, 5, 9] = .error .marbleIndex ∧
    viterbi M9 [0, 5, 9] = viterbi M9 [0, 5] :=
  c3_lazy_out_of_range M9 [5/7, 2/7] [0] [9] 5 (by decide) (by decide)
    (by decide) (by decide) (by decide) (by decide) (by decide)

/-! ### C7: shape of a successful decode -/

theorem argmaxGo_lt :
    ∀ (ys : List ℚ) (i : Nat) (acc : ℚ × Nat), acc.2 < i →
      argmaxGo i ys acc < i + ys.length
  | [], i, acc, h => by simpa using h
  | y :: ys, i, acc, h => by
    unfold argmaxGo
    split_ifs with hcmp
    · have := argmaxGo_lt ys (i + 1) (y, i) (by simp)
      simp only [List.length_cons]
      omega
    · have := argmaxGo_lt ys (i + 1) acc (by omega)
      simp only [List.length_cons]
      omega

/-- A successful argmax is an index into the list. -/
theorem argmaxE_lt (l : List ℚ) (i : Nat) (h : argmaxE l = .ok i) :
    i < l.length := by
  cases l with
  | nil => cases h
  | cons x xs =>
    have : argmaxGo 1 xs (x, 0) = i := by
      simpa [argmaxE] using h
    rw [← this]
    have h2 := argmaxGo_lt xs 1 (x, 0) (by omega)
    simp only [List.length_cons]
    omega

/-- The recorded parent is the placeholder or a scanned in-range index. -/
theorem bestParentAux_snd (Tr : List (List ℚ)) (bag : Nat) :
    ∀ (probs : List ℚ) (i : Nat) (acc : ℚ × Nat) (pr : ℚ × Nat),
      bestParentAux Tr bag i probs acc = .ok pr →
      pr.2 = acc.2 ∨ pr.2 < Tr.length
  | [], i, acc, pr, h => by
    left
    cases h
    rfl
  | pp :: rest, i, acc, pr, h => by
    unfold bestParentAux at h
    by_cases hi : i < Tr.length
    · rw [dif_pos hi] at h
      split_ifs at h with hcmp
      · rcases bestParentAux_snd Tr bag rest (i + 1) _ pr h with h2 | h2
        · right
          rw [h2]
          exact hi
        · right
          exact h2
      · exact bestParentAux_snd Tr bag rest (i + 1) acc pr h
    · rw [dif_neg hi] at h
      cases h

theorem stepBag_snd (hmm : HiddenMarkovModel) (probs : List ℚ) (marble : Int)
    (bag : Nat) (pr : ℚ × Nat) (h : stepBag hmm probs marble bag = .ok pr) :
    pr.2 = 0 ∨ pr.2 < hmm.transition_matrix.toRows.length := by
  unfold stepBag at h
  cases hbp : bestParentAux hmm.transition_matrix.toRows bag 0 probs (0, 0) with
  | error a => rw [hbp] at h; cases h
  | ok mp =>
    rw [hbp] at h
    simp only [except_bind_ok] at h
    split_ifs at h with hbag
    · cases hj : pyIndex hmm.sampling_probabilities.ncols marble with
      | some j =>
        rw [hj] at h
        have hpr : pr.2 = mp.2 := by cases h; rfl
        rw [hpr]
        exact bestParentAux_snd hmm.transition_matrix.toRows bag probs 0 (0, 0) mp hbp
      | none => rw [hj] at h; cases h

theorem stepBags_facts (hmm : HiddenMarkovModel) (probs : List ℚ)
    (marble : Int) :
    ∀ (bags : List Nat) (rs : List (ℚ × Nat)),
      stepBags hmm probs marble bags = .ok rs →
      rs.length = bags.length ∧
        ∀ x ∈ rs, x.2 = 0 ∨ x.2 < hmm.transition_matrix.toRows.length
  | [], rs, h => by
    cases h
    simp
  | bag :: rest, rs, h => by
    unfold stepBags at h
    cases hb : stepBag hmm probs marble bag with
    | error a => rw [hb] at h; cases h
    | ok r =>
      rw [hb] at h
      simp only [except_bind_ok] at h
      cases hq : stepBags hmm probs marble rest with
      | error a => rw [hq] at h; cases h
      | ok q =>
        rw [hq] at h
        have hrs : rs = r :: q := by cases h; rfl
        obtain ⟨hql, hqm⟩ := stepBags_facts hmm probs marble rest q hq
        subst hrs
        refine ⟨by simp [hql], ?_⟩
        intro x hx
        rcases List.mem_cons.mp hx with rfl | hx2
        · exact stepBag_snd hmm probs marble bag x hb
        · exact hqm x hx2

theorem stepMarble_facts (hmm : HiddenMarkovModel) (probs : List ℚ)
    (marble : Int) (np : List ℚ) (lvl : List Nat)
    (h : stepMarble hmm probs marble = .ok (np, lvl)) :
    np.length = hmm.transition_matrix.nrows ∧
      lvl.length = hmm.transition_matrix.nrows ∧
      ∀ x ∈ lvl, x = 0 ∨ x < hmm.transition_matrix.nrows := by
  unfold stepMarble at h
  cases hrs : stepBags hmm probs marble
      (List.range hmm.transition_matrix.nrows) with
  | error a => rw [hrs] at h; cases h
  | ok rs =>
    rw [hrs] at h
    simp only [except_bind_ok] at h
    obtain ⟨hlen, hmem⟩ := stepBags_facts hmm probs marble _ rs hrs
    have hnp : np = rs.map Prod.fst := by cases h; rfl
    have hlvl : lvl = rs.map Prod.snd := by cases h; rfl
    subst hnp hlvl
    refine ⟨by simp [hlen], by simp [hlen], ?_⟩
    intro x hx
    obtain ⟨pr, hpr, rfl⟩ := List.mem_map.mp hx
    rcases hmem pr hpr with h2 | h2
    · left; exact h2
    · right; rwa [toRows_length] at h2

theorem forward_facts (hmm : HiddenMarkovModel) :
    ∀ (ms : List Int) (probs pf : List ℚ) (ps : List (List Nat)),
      forward hmm probs ms = .ok (pf, ps) →
      ps.length = ms.length ∧
        ((pf = probs ∧ ps = []) ∨ pf.length = hmm.transition_matrix.nrows) ∧
        ∀ lvl ∈ ps, lvl.length = hmm.transition_matrix.nrows ∧
          ∀ x ∈ lvl, x = 0 ∨ x < hmm.transition_matrix.nrows
  | [], probs, pf, ps, h => by
    have h1 : pf = probs := by cases h; rfl
    have h2 : ps = [] := by cases h; rfl
    subst h1 h2
    exact ⟨rfl, Or.inl ⟨rfl, rfl⟩, by simp⟩
  | v :: ms, probs, pf, ps, h => by
    unfold forward at h
    cases hr : stepMarble hmm probs v with
    | error a => rw [hr] at h; cases h
    | ok r =>
      rw [hr] at h
      simp only [except_bind_ok] at h
      cases hw : forward hmm r.1 ms with
      | error a => rw [hw] at h; cases h
      | ok w =>
        rw [hw] at h
        have hpf : pf = w.1 := by cases h; rfl
        have hps : ps = r.2 :: w.2 := by cases h; rfl
        subst hpf hps
        obtain ⟨hwl, hwd, hwm⟩ := forward_facts hmm ms r.1 w.1 w.2
          (by rwa [Prod.mk.eta])
        obtain ⟨hrl, hrl2, hrm⟩ := stepMarble_facts hmm probs v r.1 r.2
          (by rwa [Prod.mk.eta])
        refine ⟨by simp [hwl], Or.inr ?_, ?_⟩
        · rcases hwd with ⟨h1, _⟩ | h1
          · rw [h1]; exact hrl
          · exact h1
        · intro lvl hlvl
          rcases List.mem_cons.mp hlvl with rfl | h2
          · exact ⟨hrl2, hrm⟩
          · exact hwm lvl h2

theorem pyGet_mem (l : List Nat) (i p : Nat) (h : pyGet l i = .ok p) :
    p ∈ l := by
  unfold pyGet at h
  split_ifs at h with hi
  · cases h
    exact List.get_mem l i hi

theorem backtrackGo_facts :
    ∀ (lvls : List (List Nat)) (last : Nat) (q : List Nat),
      backtrackGo lvls last = .ok q →
      q.length = lvls.length ∧ ∀ x ∈ q, ∃ lvl ∈ lvls, x ∈ lvl
  | [], last, q, h => by
    cases h
    simp
  | arr :: rest, last, q, h => by
    unfold backtrackGo at h
    cases hp : pyGet arr last with
    | error a => rw [hp] at h; cases h
    | ok p =>
      rw [hp] at h
      simp only [except_bind_ok] at h
      cases hq : backtrackGo rest p with
      | error a => rw [hq] at h; cases h
      | ok q2 =>
        rw [hq] at h
        have : q = p :: q2 := by cases h; rfl
        subst this
        obtain ⟨hl, hm⟩ := backtrackGo_facts rest p q2 hq
        refine ⟨by simp [hl], ?_⟩
        intro x hx
        rcases List.mem_cons.mp hx with rfl | hx2
        · exact ⟨arr, by simp, pyGet_mem arr last x hp⟩
        · obtain ⟨lvl, hlvl, hxl⟩ := hm x hx2
          exact ⟨lvl, by simp [hlvl], hxl⟩

theorem backtrack_facts (ps : List (List Nat)) (endBag : Nat)
    (path : List Nat) (h : backtrack ps endBag = .ok path) :
    path.length = ps.length + 1 ∧
      ∀ x ∈ path, x = endBag ∨ ∃ lvl ∈ ps, x ∈ lvl := by
  unfold backtrack at h
  cases hq : backtrackGo ps.reverse endBag with
  | error a => rw [hq] at h; cases h
  | ok q =>
    rw [hq] at h
    have hpath : path = (endBag :: q).reverse := by cases h; rfl
    subst hpath
    obtain ⟨hl, hm⟩ := backtrackGo_facts ps.reverse endBag q hq
    constructor
    · simp [hl]
    · intro x hx
      rw [List.mem_reverse] at hx
      rcases List.mem_cons.mp hx with rfl | hx2
      · exact Or.inl rfl
      · right
        obtain ⟨lvl, hlvl, hxl⟩ := hm x hx2
        exact ⟨lvl, List.mem_reverse.mp hlvl, hxl⟩

/-- **C7 (amended)**: for a validated model whose emission matrix has one
row per state, every successful decode returns a path with exactly one
state index per observation, each in `[0, n)`. -/
theorem c7_path_shape (hmm : HiddenMarkovModel) (obs : List Int)
    (path : List Nat)
    (_hval : HiddenMarkovModel.make hmm.transition_matrix
      hmm.sampling_probabilities = .ok hmm)
    (hrows : hmm.sampling_probabilities.nrows = hmm.transition_matrix.nrows)
    (hok : viterbi hmm obs = .ok path) :
    path.length = obs.length ∧
      ∀ x ∈ path, x < hmm.transition_matrix.nrows := by
  unfold viterbi at hok
  cases hfp : viterbi_forward hmm obs with
  | error a => rw [hfp, except_bind_err] at hok; cases hok
  | ok fp =>
    rw [hfp] at hok
    simp only [except_bind_ok] at hok
    cases hend : argmaxE fp.1 with
    | error a => rw [hend, except_bind_err] at hok; cases hok
    | ok endBag =>
      rw [hend] at hok
      simp only [except_bind_ok] at hok
      obtain ⟨hptl, hptm⟩ := backtrack_facts fp.2 endBag path hok
      have hendlt := argmaxE_lt fp.1 endBag hend
      cases obs with
      | nil => cases hfp
      | cons o os =>
        simp only [viterbi_forward] at hfp
        cases hss : hmm.steady_state_probabilities with
        | error a => rw [hss, except_bind_err] at hfp; cases hfp
        | ok ss =>
          rw [hss] at hfp
          simp only [except_bind_ok] at hfp
          cases hcol : samplingColumn hmm o with
          | error a => rw [hcol, except_bind_err] at hfp; cases hfp
          | ok col =>
            rw [hcol] at hfp
            simp only [except_bind_ok] at hfp
            cases hbc : broadcastMul ss col with
            | error a => rw [hbc, except_bind_err] at hfp; cases hfp
            | ok probs0 =>
              rw [hbc] at hfp
              simp only [except_bind_ok] at hfp
              obtain ⟨hfl, hfd, hfm⟩ := forward_facts hmm os probs0 fp.1 fp.2
                (by rwa [Prod.mk.eta])
              have hcollen : col.length = hmm.transition_matrix.nrows := by
                unfold samplingColumn at hcol
                cases hj : pyIndex hmm.sampling_probabilities.ncols o with
                | some j =>
                  rw [hj] at hcol
                  have : col = hmm.sampling_probabilities.toRows.map
                      (fun r => entry r j) := by cases hcol; rfl
                  rw [this, List.length_map, toRows_length, hrows]
                | none => rw [hj] at hcol; cases hcol
              have hplen : probs0 = [] ∨
                  probs0.length = hmm.transition_matrix.nrows := by
                rcases broadcastMul_ok_length ss col probs0 hbc with h1 | h1
                · rcases steady_ok_length hmm ss hss with h2 | h2
                  · left
                    rw [h2] at h1
                    exact List.length_eq_zero.mp (by simpa using h1)
                  · right
                    rw [h1, h2]
                · right
                  rw [h1, hcollen]
              have hendn : endBag < hmm.transition_matrix.nrows := by
                rcases hfd with ⟨h1, _⟩ | h1
                · rw [h1] at hendlt
                  rcases hplen with h2 | h2
                  · rw [h2] at hendlt
                    simp at hendlt
                  · rwa [h2] at hendlt
                · rwa [h1] at hendlt
              refine ⟨by rw [hptl, hfl]; simp, ?_⟩
              intro x hx
              rcases hptm x hx with rfl | ⟨lvl, hlvl, hxl⟩
              · exact hendn
              · rcases (hfm lvl hlvl).2 x hxl with rfl | h2
                · omega
                · exact h2

unseal Rat.add Rat.mul Rat.inv Rat.sub in
/-- **C7 (counterexample)**: the validated model `M7` has `n = 1` state
but a two-row emission matrix; decoding `[0]` succeeds with path `[1]`,
whose element is not in `[0, 1)`. -/
theorem c7_counterexample :
    HiddenMarkovModel.make t1 e7 = .ok M7 ∧
    viterbi M7 [0] = .ok [1] ∧
    M7.transition_matrix.nrows = 1 ∧ ¬ (1 < 1) := by decide

unseal Rat.add Rat.mul Rat.inv Rat.sub in
/-- Witness for `c7_path_shape` at the two-state example. -/
theorem c7_witness :
    ([0, 0, 0, 0] : List Nat).length = ([0, 0, 1, 0] : List Int).length ∧
    ∀ x ∈ ([0, 0, 0, 0] : List Nat), x < M9.transition_matrix.nrows :=
  c7_path_shape M9 [0, 0, 1, 0] [0, 0, 0, 0] (by decide) (by decide)
    (by decide)

end Viterbi
